import Mathlib

/-!
Verification of the SPSC lock-free ring buffer from `src/include/SPSCRing.h`
(`SPSCRing<T, Size>`), modelled sequentially.

Encoding conventions:
* `size_t` indices (`head_`, `tail_`) are `Nat`.  The code only ever stores
  masked values `(x + 1) & (Size - 1)`, so these never overflow `size_t`.
* `uint64_t` counters are `Nat` kept reduced modulo `2 ^ 64`; every
  `fetch_add(1)` is modelled as `(c + 1) % 2 ^ 64`, matching unsigned
  wraparound.
* The buffer `T buffer_[Size]` is a total function `Nat → T`; only indices
  below `Size` are ever read or written by the operations.
* `bool try_pop(T& item)` is modelled as returning `Option T` together with
  the successor state; `try_emplace` returns `Bool` and the successor state.
-/

/-- Modulus of `uint64_t` arithmetic. -/
def U64 : Nat := 2 ^ 64

/-- State of `SPSCRing<T, Size>`: head and tail positions, the buffer, and
the three performance counters (`push_count_`, `pop_count_`,
`failed_push_count_`). -/
structure SPSCRing (T : Type) (Size : Nat) where
  head_ : Nat
  tail_ : Nat
  buffer_ : Nat → T
  push_count_ : Nat
  pop_count_ : Nat
  failed_push_count_ : Nat

/-- Helper `next_index(current) = (current + 1) & MASK` with
`MASK = Size - 1` (the code statically asserts that `Size` is a power of
two, so the bit-and is a modulo). -/
def next_index (Size current : Nat) : Nat :=
  (current + 1) &&& (Size - 1)

/-- Constructor `SPSCRing()`: zero positions and counters, every slot
default-initialised (`new (&buffer_[i]) T{}`). -/
def SPSCRing.new (T : Type) [Inhabited T] (Size : Nat) : SPSCRing T Size :=
  { head_ := 0
    tail_ := 0
    buffer_ := fun _ => default
    push_count_ := 0
    pop_count_ := 0
    failed_push_count_ := 0 }

/-- Copy overload `bool try_emplace(const T& item)`. -/
def SPSCRing.try_emplace {T : Type} {Size : Nat} (r : SPSCRing T Size)
    (item : T) : Bool × SPSCRing T Size :=
  let current_head := r.head_
  let next_head := next_index Size current_head
  if next_head = r.tail_ then
    (false, { r with failed_push_count_ := (r.failed_push_count_ + 1) % U64 })
  else
    (true, { r with
      buffer_ := fun i => if i = current_head then item else r.buffer_ i
      head_ := next_head
      push_count_ := (r.push_count_ + 1) % U64 })

/-- Move overload `bool try_emplace(T&& item)`; same protocol, the payload is
moved instead of copied (indistinguishable in the value model). -/
def SPSCRing.try_emplace_move {T : Type} {Size : Nat} (r : SPSCRing T Size)
    (item : T) : Bool × SPSCRing T Size :=
  let current_head := r.head_
  let next_head := next_index Size current_head
  if next_head = r.tail_ then
    (false, { r with failed_push_count_ := (r.failed_push_count_ + 1) % U64 })
  else
    (true, { r with
      buffer_ := fun i => if i = current_head then item else r.buffer_ i
      head_ := next_head
      push_count_ := (r.push_count_ + 1) % U64 })

/-- Consumer operation `bool try_pop(T& item)`.  On success the popped value
is `buffer_[current_tail]` (the slot itself is only logically vacated; a
moved-from value may remain, which the model keeps unchanged). -/
def SPSCRing.try_pop {T : Type} {Size : Nat} (r : SPSCRing T Size) :
    Option T × SPSCRing T Size :=
  let current_tail := r.tail_
  if current_tail = r.head_ then
    (none, r)
  else
    let item := r.buffer_ current_tail
    let next_tail := next_index Size current_tail
    (some item, { r with
      tail_ := next_tail
      pop_count_ := (r.pop_count_ + 1) % U64 })

/-- Status query `bool empty()`. -/
def SPSCRing.empty {T : Type} {Size : Nat} (r : SPSCRing T Size) : Bool :=
  r.head_ == r.tail_

/-- Status query `bool full()`. -/
def SPSCRing.full {T : Type} {Size : Nat} (r : SPSCRing T Size) : Bool :=
  next_index Size r.head_ == r.tail_

/-- Status query `size_t size()`, computing `(head - tail) & MASK` where the
subtraction is `size_t` arithmetic, encoded as `(head + 2^64 - tail) % 2^64`
(exact for `head, tail < 2^64`). -/
def SPSCRing.size {T : Type} {Size : Nat} (r : SPSCRing T Size) : Nat :=
  ((r.head_ + U64 - r.tail_) % U64) &&& (Size - 1)

/-- Status query `size_t capacity()`: the constant `Size - 1` (one slot
reserved). -/
def SPSCRing.capacity {T : Type} {Size : Nat} (_ : SPSCRing T Size) : Nat :=
  Size - 1

/-- Monitoring query `uint64_t total_pushes()`. -/
def SPSCRing.total_pushes {T : Type} {Size : Nat} (r : SPSCRing T Size) : Nat :=
  r.push_count_

/-- Monitoring query `uint64_t total_pops()`. -/
def SPSCRing.total_pops {T : Type} {Size : Nat} (r : SPSCRing T Size) : Nat :=
  r.pop_count_

/-- Monitoring query `uint64_t failed_pushes()`. -/
def SPSCRing.failed_pushes {T : Type} {Size : Nat} (r : SPSCRing T Size) : Nat :=
  r.failed_push_count_

theorem total_pushes_def {T : Type} {Size : Nat} (r : SPSCRing T Size) :
    r.total_pushes = r.push_count_ := rfl

theorem total_pops_def {T : Type} {Size : Nat} (r : SPSCRing T Size) :
    r.total_pops = r.pop_count_ := rfl

theorem failed_pushes_def {T : Type} {Size : Nat} (r : SPSCRing T Size) :
    r.failed_pushes = r.failed_push_count_ := rfl

/-- One client call: a push of a value (served by `try_emplace`) or a pop
(served by `try_pop`).  Sequential interleavings of these model the SPSC
usage discipline. -/
inductive RingOp (T : Type) where
  | push (x : T)
  | pop

/-- Run a sequence of calls.  Returns the values accepted by successful
`try_emplace` calls (in call order), the values delivered by successful
`try_pop` calls (in call order), and the final state. -/
def runTrace {T : Type} {Size : Nat} (r : SPSCRing T Size) :
    List (RingOp T) → List T × List T × SPSCRing T Size
  | [] => ([], [], r)
  | RingOp.push x :: rest =>
      let res := r.try_emplace x
      let rec2 := runTrace res.2 rest
      ((if res.1 then x :: rec2.1 else rec2.1), rec2.2.1, rec2.2.2)
  | RingOp.pop :: rest =>
      let res := r.try_pop
      let rec2 := runTrace res.2 rest
      (rec2.1, (match res.1 with
        | some v => v :: rec2.2.1
        | none => rec2.2.1), rec2.2.2)

/-- Final state after a sequence of calls. -/
def runState {T : Type} {Size : Nat} (r : SPSCRing T Size)
    (ops : List (RingOp T)) : SPSCRing T Size :=
  (runTrace r ops).2.2

/-- Number of push calls (`try_emplace` invocations) in a call sequence. -/
def pushCalls {T : Type} : List (RingOp T) → Nat
  | [] => 0
  | RingOp.push _ :: rest => pushCalls rest + 1
  | RingOp.pop :: rest => pushCalls rest

/-- Number of elements logically held: `(head - tail) mod Size`. -/
def ringLen {T : Type} {Size : Nat} (r : SPSCRing T Size) : Nat :=
  (r.head_ + Size - r.tail_) % Size

/-- The values currently held by the queue, oldest first, read out of the
buffer slots from `tail_` onwards. -/
def contents {T : Type} {Size : Nat} (r : SPSCRing T Size) : List T :=
  (List.range (ringLen r)).map (fun i => r.buffer_ ((r.tail_ + i) % Size))

/-! Characterisation lemmas: each operation split by its guard, and the
bit-mask reduced to a modulo when `Size` is a power of two. -/

theorem next_index_pow (k c : Nat) : next_index (2 ^ k) c = (c + 1) % 2 ^ k := by
  simp [next_index, Nat.and_pow_two_sub_one_eq_mod]

theorem next_index_lt {Size : Nat} (hS : 0 < Size) (c : Nat) :
    next_index Size c < Size :=
  lt_of_le_of_lt Nat.and_le_right (by omega)

theorem try_emplace_full {T : Type} {Size : Nat} {r : SPSCRing T Size} (x : T)
    (h : next_index Size r.head_ = r.tail_) :
    r.try_emplace x =
      (false, { r with failed_push_count_ := (r.failed_push_count_ + 1) % U64 }) := by
  simp [SPSCRing.try_emplace, h]

theorem try_emplace_ok {T : Type} {Size : Nat} {r : SPSCRing T Size} (x : T)
    (h : ¬ next_index Size r.head_ = r.tail_) :
    r.try_emplace x =
      (true, { r with
        buffer_ := fun i => if i = r.head_ then x else r.buffer_ i
        head_ := next_index Size r.head_
        push_count_ := (r.push_count_ + 1) % U64 }) := by
  simp [SPSCRing.try_emplace, h]

theorem try_emplace_move_eq {T : Type} {Size : Nat} (r : SPSCRing T Size)
    (x : T) : r.try_emplace_move x = r.try_emplace x := by
  simp [SPSCRing.try_emplace_move, SPSCRing.try_emplace]

theorem try_pop_of_empty {T : Type} {Size : Nat} {r : SPSCRing T Size}
    (h : r.tail_ = r.head_) : r.try_pop = (none, r) := by
  simp [SPSCRing.try_pop, h]

theorem try_pop_ok {T : Type} {Size : Nat} {r : SPSCRing T Size}
    (h : ¬ r.tail_ = r.head_) :
    r.try_pop =
      (some (r.buffer_ r.tail_), { r with
        tail_ := next_index Size r.tail_
        pop_count_ := (r.pop_count_ + 1) % U64 }) := by
  simp [SPSCRing.try_pop, h]

theorem runTrace_append {T : Type} {Size : Nat} (r : SPSCRing T Size)
    (l1 l2 : List (RingOp T)) :
    runTrace r (l1 ++ l2) =
      ((runTrace r l1).1 ++ (runTrace (runState r l1) l2).1,
       (runTrace r l1).2.1 ++ (runTrace (runState r l1) l2).2.1,
       runState (runState r l1) l2) := by
  induction l1 generalizing r with
  | nil => simp [runTrace, runState]
  | cons op rest ih =>
    cases op with
    | push x =>
      simp only [List.cons_append, runTrace, runState]
      split <;> simp [ih, runState]
    | pop =>
      simp only [List.cons_append, runTrace, runState]
      cases (r.try_pop).1 <;> simp [ih, runState]

theorem pushCalls_append {T : Type} (l1 l2 : List (RingOp T)) :
    pushCalls (l1 ++ l2) = pushCalls l1 + pushCalls l2 := by
  induction l1 with
  | nil => simp [pushCalls]
  | cons op rest ih =>
    cases op with
    | push x =>
      have h : pushCalls ((RingOp.push x :: rest) ++ l2) =
          pushCalls (rest ++ l2) + 1 := rfl
      rw [h, ih, pushCalls]
      omega
    | pop =>
      have h : pushCalls ((RingOp.pop :: rest) ++ l2) =
          pushCalls (rest ++ l2) := rfl
      rw [h, ih, pushCalls]

theorem runState_nil {T : Type} {Size : Nat} (r : SPSCRing T Size) :
    runState r [] = r := rfl

theorem runState_cons_push {T : Type} {Size : Nat} (r : SPSCRing T Size)
    (x : T) (rest : List (RingOp T)) :
    runState r (RingOp.push x :: rest) = runState (r.try_emplace x).2 rest := rfl

theorem runState_cons_pop {T : Type} {Size : Nat} (r : SPSCRing T Size)
    (rest : List (RingOp T)) :
    runState r (RingOp.pop :: rest) = runState r.try_pop.2 rest := rfl

/-- Head and tail positions stay below `Size` across any run: every store to
them is a masked value `(x + 1) & (Size - 1) ≤ Size - 1`. -/
theorem head_tail_lt_runState {T : Type} {Size : Nat} (hS : 0 < Size)
    (r : SPSCRing T Size) (hh : r.head_ < Size) (ht : r.tail_ < Size)
    (ops : List (RingOp T)) :
    (runState r ops).head_ < Size ∧ (runState r ops).tail_ < Size := by
  induction ops generalizing r with
  | nil => exact ⟨hh, ht⟩
  | cons op rest ih =>
    cases op with
    | push x =>
      rw [runState_cons_push]
      by_cases hc : next_index Size r.head_ = r.tail_
      · rw [try_emplace_full x hc]
        exact ih _ hh ht
      · rw [try_emplace_ok x hc]
        exact ih _ (next_index_lt hS _) ht
    | pop =>
      rw [runState_cons_pop]
      by_cases hc : r.tail_ = r.head_
      · rw [try_pop_of_empty hc]
        exact ih _ hh ht
      · rw [try_pop_ok hc]
        exact ih _ hh (next_index_lt hS _)

/-- C4: if `head == tail` (the queue is empty, e.g. freshly constructed or
after equal successful push and pop counts), `try_pop` reports failure and
returns the state completely unchanged — head, tail, buffer and all three
counters. -/
theorem empty_pop_no_mutation {T : Type} {Size : Nat} (r : SPSCRing T Size)
    (h : r.head_ = r.tail_) :
    r.try_pop = (none, r) :=
  try_pop_of_empty h.symm

/-- Witness for `empty_pop_no_mutation` on a freshly constructed queue. -/
theorem empty_pop_no_mutation_witness :
    (SPSCRing.new Nat 4).head_ = (SPSCRing.new Nat 4).tail_ ∧
    (SPSCRing.new Nat 4).try_pop = (none, SPSCRing.new Nat 4) :=
  ⟨rfl, empty_pop_no_mutation (SPSCRing.new Nat 4) rfl⟩

/-- C5: on a full queue (`(head + 1) mod N == tail`), both `try_emplace`
overloads return `false`, bump only the failed-push counter by one (in
`uint64_t` arithmetic), and leave head, tail, the buffer and the other two
counters untouched. -/
theorem full_push_behaviour {T : Type} {Size : Nat} (k : Nat)
    (r : SPSCRing T Size) (x : T) (hS : Size = 2 ^ k)
    (h : (r.head_ + 1) % Size = r.tail_) :
    (r.try_emplace x).1 = false ∧
    (r.try_emplace_move x).1 = false ∧
    (r.try_emplace x).2 =
      { r with failed_push_count_ := (r.failed_push_count_ + 1) % U64 } ∧
    (r.try_emplace_move x).2 =
      { r with failed_push_count_ := (r.failed_push_count_ + 1) % U64 } := by
  subst hS
  have hn : next_index (2 ^ k) r.head_ = r.tail_ := by
    rw [next_index_pow]; exact h
  rw [try_emplace_move_eq, try_emplace_full x hn]
  exact ⟨rfl, rfl, rfl, rfl⟩

/-- Witness for `full_push_behaviour`: a full two-slot queue. -/
theorem full_push_behaviour_witness :
    (2 : Nat) = 2 ^ 1 ∧
    (((⟨1, 0, fun _ => 37, 1, 0, 0⟩ : SPSCRing Nat 2).head_ + 1) % 2 =
      (⟨1, 0, fun _ => 37, 1, 0, 0⟩ : SPSCRing Nat 2).tail_) ∧
    (((⟨1, 0, fun _ => 37, 1, 0, 0⟩ : SPSCRing Nat 2).try_emplace 9).1 = false ∧
     ((⟨1, 0, fun _ => 37, 1, 0, 0⟩ : SPSCRing Nat 2).try_emplace_move 9).1 = false ∧
     ((⟨1, 0, fun _ => 37, 1, 0, 0⟩ : SPSCRing Nat 2).try_emplace 9).2 =
       { (⟨1, 0, fun _ => 37, 1, 0, 0⟩ : SPSCRing Nat 2) with
         failed_push_count_ :=
           ((⟨1, 0, fun _ => 37, 1, 0, 0⟩ : SPSCRing Nat 2).failed_push_count_ + 1) % U64 } ∧
     ((⟨1, 0, fun _ => 37, 1, 0, 0⟩ : SPSCRing Nat 2).try_emplace_move 9).2 =
       { (⟨1, 0, fun _ => 37, 1, 0, 0⟩ : SPSCRing Nat 2) with
         failed_push_count_ :=
           ((⟨1, 0, fun _ => 37, 1, 0, 0⟩ : SPSCRing Nat 2).failed_push_count_ + 1) % U64 }) :=
  ⟨by decide, by decide,
    full_push_behaviour 1 (⟨1, 0, fun _ => 37, 1, 0, 0⟩ : SPSCRing Nat 2) 9
      (by decide) (by decide)⟩

/-- C7: after construction and after any sequence of operations, both
`head` and `tail` lie in `[0, Size)` — they are kept reduced via the bit
mask. -/
theorem index_range_inv {T : Type} [Inhabited T] {Size : Nat} (k : Nat)
    (hS : Size = 2 ^ k) (ops : List (RingOp T)) :
    (runState (SPSCRing.new T Size) ops).head_ < Size ∧
    (runState (SPSCRing.new T Size) ops).tail_ < Size :=
  have hpos : 0 < Size := by rw [hS]; exact pow_pos (by decide) k
  head_tail_lt_runState hpos _ hpos hpos ops

/-- Witness for `index_range_inv`. -/
theorem index_range_inv_witness :
    (4 : Nat) = 2 ^ 2 ∧
    ((runState (SPSCRing.new Nat 4) [RingOp.push 3, RingOp.pop]).head_ < 4 ∧
     (runState (SPSCRing.new Nat 4) [RingOp.push 3, RingOp.pop]).tail_ < 4) :=
  ⟨by decide, index_range_inv 2 (by decide) [RingOp.push 3, RingOp.pop]⟩

/-- C8: `empty()` is true exactly when `head == tail`; `full()` is true
exactly when `(head + 1) mod N == tail`; `capacity()` is the constant
`N - 1` and is unchanged by any sequence of operations. -/
theorem status_queries {T : Type} {Size : Nat} (k : Nat) (hS : Size = 2 ^ k)
    (r : SPSCRing T Size) (ops : List (RingOp T)) :
    (r.empty = true ↔ r.head_ = r.tail_) ∧
    (r.full = true ↔ (r.head_ + 1) % Size = r.tail_) ∧
    r.capacity = Size - 1 ∧
    (runState r ops).capacity = r.capacity := by
  subst hS
  refine ⟨?_, ?_, rfl, rfl⟩
  · simp [SPSCRing.empty]
  · simp [SPSCRing.full, next_index_pow]

/-- Witness for `status_queries`. -/
theorem status_queries_witness :
    (4 : Nat) = 2 ^ 2 ∧
    (((SPSCRing.new Nat 4).empty = true ↔
        (SPSCRing.new Nat 4).head_ = (SPSCRing.new Nat 4).tail_) ∧
     ((SPSCRing.new Nat 4).full = true ↔
        ((SPSCRing.new Nat 4).head_ + 1) % 4 = (SPSCRing.new Nat 4).tail_) ∧
     (SPSCRing.new Nat 4).capacity = 4 - 1 ∧
     (runState (SPSCRing.new Nat 4) [RingOp.push 1]).capacity =
       (SPSCRing.new Nat 4).capacity) :=
  ⟨by decide, status_queries 2 (by decide) (SPSCRing.new Nat 4) [RingOp.push 1]⟩

/-- C9: on a fresh `SPSCRing<T, 2>` (usable capacity 1), pushing `A`
succeeds, pushing `B` then fails (full), the first pop delivers `A`, and a
second pop fails (empty). -/
theorem min_size_round_trip {T : Type} [Inhabited T] (A B : T) :
    ((SPSCRing.new T 2).try_emplace A).1 = true ∧
    (((SPSCRing.new T 2).try_emplace A).2.try_emplace B).1 = false ∧
    ((((SPSCRing.new T 2).try_emplace A).2.try_emplace B).2.try_pop).1 = some A ∧
    (((((SPSCRing.new T 2).try_emplace A).2.try_emplace B).2.try_pop).2.try_pop).1 = none := by
  have h1 : next_index 2 0 = 1 := by decide
  have h2 : next_index 2 1 = 0 := by decide
  simp [SPSCRing.new, SPSCRing.try_emplace, SPSCRing.try_pop, h1, h2]

theorem runState_append {T : Type} {Size : Nat} (r : SPSCRing T Size)
    (l1 l2 : List (RingOp T)) :
    runState r (l1 ++ l2) = runState (runState r l1) l2 := by
  simp [runState, runTrace_append]

/-- Sequence of `j` push calls with values drawn from `vals`. -/
def pushSeq {T : Type} (vals : Nat → T) (j : Nat) : List (RingOp T) :=
  (List.range j).map (fun i => RingOp.push (vals i))

/-- After `j ≤ Size - 1` pushes on a fresh queue every push has succeeded,
leaving `head = j` and `tail = 0`. -/
theorem pushSeq_state {T : Type} [Inhabited T] (k : Nat) (vals : Nat → T) :
    ∀ j, j ≤ 2 ^ k - 1 →
      (runState (SPSCRing.new T (2 ^ k)) (pushSeq vals j)).head_ = j ∧
      (runState (SPSCRing.new T (2 ^ k)) (pushSeq vals j)).tail_ = 0 := by
  intro j
  induction j with
  | zero => intro _; exact ⟨rfl, rfl⟩
  | succ n ih =>
    intro hj
    obtain ⟨hh, ht⟩ := ih (by omega)
    have hpos : 0 < 2 ^ k := pow_pos (by decide) k
    have hstep : pushSeq vals (n + 1) =
        pushSeq vals n ++ [RingOp.push (vals n)] := by
      simp [pushSeq, List.range_succ]
    rw [hstep, runState_append]
    have hguard : ¬ next_index (2 ^ k)
        (runState (SPSCRing.new T (2 ^ k)) (pushSeq vals n)).head_ =
        (runState (SPSCRing.new T (2 ^ k)) (pushSeq vals n)).tail_ := by
      rw [next_index_pow, hh, ht, Nat.mod_eq_of_lt (by omega)]
      omega
    have hrun : runState (runState (SPSCRing.new T (2 ^ k)) (pushSeq vals n))
        [RingOp.push (vals n)] =
        ((runState (SPSCRing.new T (2 ^ k)) (pushSeq vals n)).try_emplace
          (vals n)).2 := rfl
    rw [hrun, try_emplace_ok _ hguard]
    refine ⟨?_, ht⟩
    show next_index (2 ^ k)
      (runState (SPSCRing.new T (2 ^ k)) (pushSeq vals n)).head_ = n + 1
    rw [next_index_pow, hh, Nat.mod_eq_of_lt (by omega)]

/-- C2: on a fresh queue of power-of-two size `N ≥ 2`, the first `N - 1`
pushes all succeed, the `N`-th fails, and after one successful pop a further
push succeeds again; the usable capacity is the constant `N - 1`. -/
theorem capacity_boundary {T : Type} [Inhabited T] {Size : Nat} (k : Nat)
    (vals : Nat → T) (y z : T) (hS : Size = 2 ^ k) (hk : 1 ≤ k) :
    (∀ j, j < Size - 1 →
      ((runState (SPSCRing.new T Size) (pushSeq vals j)).try_emplace
        (vals j)).1 = true) ∧
    ((runState (SPSCRing.new T Size) (pushSeq vals (Size - 1))).try_emplace
      y).1 = false ∧
    (runState (SPSCRing.new T Size)
      (pushSeq vals (Size - 1))).try_pop.1.isSome = true ∧
    (((runState (SPSCRing.new T Size)
      (pushSeq vals (Size - 1))).try_pop.2.try_emplace z).1 = true) ∧
    (SPSCRing.new T Size).capacity = Size - 1 := by
  subst hS
  have hpos : 0 < 2 ^ k := pow_pos (by decide) k
  have h2 : 2 ≤ 2 ^ k := by
    calc 2 = 2 ^ 1 := by norm_num
    _ ≤ 2 ^ k := Nat.pow_le_pow_right (by norm_num) hk
  refine ⟨?_, ?_, ?_, ?_, rfl⟩
  · intro j hj
    obtain ⟨hh, ht⟩ := pushSeq_state k vals j (by omega)
    have hguard : ¬ next_index (2 ^ k)
        (runState (SPSCRing.new T (2 ^ k)) (pushSeq vals j)).head_ =
        (runState (SPSCRing.new T (2 ^ k)) (pushSeq vals j)).tail_ := by
      rw [next_index_pow, hh, ht, Nat.mod_eq_of_lt (by omega)]
      omega
    rw [try_emplace_ok _ hguard]
  · obtain ⟨hh, ht⟩ := pushSeq_state k vals (2 ^ k - 1) (by omega)
    have hguard : next_index (2 ^ k)
        (runState (SPSCRing.new T (2 ^ k)) (pushSeq vals (2 ^ k - 1))).head_ =
        (runState (SPSCRing.new T (2 ^ k)) (pushSeq vals (2 ^ k - 1))).tail_ := by
      rw [next_index_pow, hh, ht]
      have : 2 ^ k - 1 + 1 = 2 ^ k := by omega
      rw [this, Nat.mod_self]
    rw [try_emplace_full _ hguard]
  · obtain ⟨hh, ht⟩ := pushSeq_state k vals (2 ^ k - 1) (by omega)
    have hguard : ¬ (runState (SPSCRing.new T (2 ^ k))
        (pushSeq vals (2 ^ k - 1))).tail_ =
        (runState (SPSCRing.new T (2 ^ k)) (pushSeq vals (2 ^ k - 1))).head_ := by
      rw [hh, ht]; omega
    rw [try_pop_ok hguard]
    rfl
  · obtain ⟨hh, ht⟩ := pushSeq_state k vals (2 ^ k - 1) (by omega)
    have hguard : ¬ (runState (SPSCRing.new T (2 ^ k))
        (pushSeq vals (2 ^ k - 1))).tail_ =
        (runState (SPSCRing.new T (2 ^ k)) (pushSeq vals (2 ^ k - 1))).head_ := by
      rw [hh, ht]; omega
    rw [try_pop_ok hguard]
    have hguard2 : ¬ next_index (2 ^ k)
        (runState (SPSCRing.new T (2 ^ k)) (pushSeq vals (2 ^ k - 1))).head_ =
        next_index (2 ^ k)
          (runState (SPSCRing.new T (2 ^ k)) (pushSeq vals (2 ^ k - 1))).tail_ := by
      rw [next_index_pow, next_index_pow, hh, ht]
      have h3 : 2 ^ k - 1 + 1 = 2 ^ k := by omega
      rw [h3, Nat.mod_self, Nat.mod_eq_of_lt (by omega)]
      omega
    rw [try_emplace_ok _ hguard2]

/-- Witness for `capacity_boundary` at `N = 4`. -/
theorem capacity_boundary_witness :
    (4 : Nat) = 2 ^ 2 ∧ 1 ≤ 2 ∧
    ((∀ j, j < 4 - 1 →
      ((runState (SPSCRing.new Nat 4) (pushSeq (fun i => i + 10) j)).try_emplace
        ((fun i : Nat => i + 10) j)).1 = true) ∧
    ((runState (SPSCRing.new Nat 4)
      (pushSeq (fun i => i + 10) (4 - 1))).try_emplace 77).1 = false ∧
    (runState (SPSCRing.new Nat 4)
      (pushSeq (fun i => i + 10) (4 - 1))).try_pop.1.isSome = true ∧
    (((runState (SPSCRing.new Nat 4)
      (pushSeq (fun i => i + 10) (4 - 1))).try_pop.2.try_emplace 88).1 = true) ∧
    (SPSCRing.new Nat 4).capacity = 4 - 1) :=
  ⟨by decide, by decide,
    capacity_boundary 2 (fun i => i + 10) 77 88 (by decide) (by decide)⟩

/-! Arithmetic of the circular distance `(head + Size - tail) % Size`. -/

theorem ring_len_eq_zero_iff {Size h t : Nat} (hh : h < Size) (ht : t < Size) :
    (h + Size - t) % Size = 0 ↔ h = t := by
  rcases Nat.lt_or_ge h t with hc | hc
  · have e1 : (h + Size - t) % Size = Size - (t - h) := by
      rw [Nat.mod_eq_of_lt (by omega)]
      omega
    rw [e1]
    omega
  · have e1 : (h + Size - t) % Size = h - t := by
      have e : h + Size - t = (h - t) + Size := by omega
      rw [e, Nat.add_mod_right, Nat.mod_eq_of_lt (by omega)]
    rw [e1]
    omega

theorem ring_len_succ {Size h t : Nat} (hh : h < Size) (ht : t < Size)
    (hfull : ¬ (h + 1) % Size = t) :
    ((h + 1) % Size + Size - t) % Size = (h + Size - t) % Size + 1 := by
  rcases Nat.lt_or_ge (h + 1) Size with hc | hc
  · rw [Nat.mod_eq_of_lt hc] at hfull ⊢
    rcases Nat.lt_or_ge h t with hlt | hge
    · have e1 : (h + Size - t) % Size = Size - (t - h) := by
        rw [Nat.mod_eq_of_lt (by omega)]
        omega
      have e2 : (h + 1 + Size - t) % Size = Size - (t - (h + 1)) := by
        rw [Nat.mod_eq_of_lt (by omega)]
        omega
      rw [e1, e2]
      omega
    · have e1 : (h + Size - t) % Size = h - t := by
        have e : h + Size - t = (h - t) + Size := by omega
        rw [e, Nat.add_mod_right, Nat.mod_eq_of_lt (by omega)]
      have e2 : (h + 1 + Size - t) % Size = h + 1 - t := by
        have e : h + 1 + Size - t = (h + 1 - t) + Size := by omega
        rw [e, Nat.add_mod_right, Nat.mod_eq_of_lt (by omega)]
      rw [e1, e2]
      omega
  · have hS : h + 1 = Size := by omega
    have e0 : (h + 1) % Size = 0 := by
      rw [hS, Nat.mod_self]
    rw [e0] at hfull ⊢
    have htpos : 0 < t := by omega
    have e1 : (0 + Size - t) % Size = Size - t := by
      rw [Nat.mod_eq_of_lt (by omega)]
      omega
    have e2 : (h + Size - t) % Size = h - t := by
      have e : h + Size - t = (h - t) + Size := by omega
      rw [e, Nat.add_mod_right, Nat.mod_eq_of_lt (by omega)]
    rw [e1, e2]
    omega

theorem ring_len_pred {Size h t : Nat} (hh : h < Size) (ht : t < Size)
    (hne : ¬ t = h) :
    (h + Size - (t + 1) % Size) % Size + 1 = (h + Size - t) % Size := by
  rcases Nat.lt_or_ge (t + 1) Size with hc | hc
  · rw [Nat.mod_eq_of_lt hc]
    rcases Nat.lt_or_ge h t with hlt | hge
    · have e1 : (h + Size - t) % Size = Size - (t - h) := by
        rw [Nat.mod_eq_of_lt (by omega)]
        omega
      rcases Nat.lt_or_ge h (t + 1) with hlt2 | hge2
      · have e2 : (h + Size - (t + 1)) % Size = Size - (t + 1 - h) := by
          rw [Nat.mod_eq_of_lt (by omega)]
          omega
        rw [e1, e2]
        omega
      · omega
    · have e1 : (h + Size - t) % Size = h - t := by
        have e : h + Size - t = (h - t) + Size := by omega
        rw [e, Nat.add_mod_right, Nat.mod_eq_of_lt (by omega)]
      have e2 : (h + Size - (t + 1)) % Size = h - (t + 1) := by
        have e : h + Size - (t + 1) = (h - (t + 1)) + Size := by omega
        rw [e, Nat.add_mod_right, Nat.mod_eq_of_lt (by omega)]
      rw [e1, e2]
      omega
  · have hS : t + 1 = Size := by omega
    have e0 : (t + 1) % Size = 0 := by rw [hS, Nat.mod_self]
    rw [e0]
    have e1 : (h + Size - 0) % Size = h := by
      have e : h + Size - 0 = h + Size := by omega
      rw [e, Nat.add_mod_right, Nat.mod_eq_of_lt hh]
    have e2 : (h + Size - t) % Size = Size - (t - h) := by
      rw [Nat.mod_eq_of_lt (by omega)]
      omega
    rw [e1, e2]
    omega

/-- Reachability invariant: positions in range, pop count at most push
count, and the circular distance from tail to head equal to the surplus of
successful pushes over successful pops. -/
def SInv {T : Type} {Size : Nat} (r : SPSCRing T Size) : Prop :=
  r.head_ < Size ∧ r.tail_ < Size ∧
  r.pop_count_ ≤ r.push_count_ ∧
  (r.head_ + Size - r.tail_) % Size = r.push_count_ - r.pop_count_

/-- Running any call sequence preserves `SInv`, adds exactly one unit to
`push_count_ + failed_push_count_` per push call (while no counter wraps),
and never decreases any counter. -/
theorem counters_run {T : Type} {k : Nat} :
    ∀ (ops : List (RingOp T)) (r : SPSCRing T (2 ^ k)),
      SInv r →
      r.push_count_ + r.failed_push_count_ + pushCalls ops < U64 →
      SInv (runState r ops) ∧
      (runState r ops).push_count_ + (runState r ops).failed_push_count_ =
        r.push_count_ + r.failed_push_count_ + pushCalls ops ∧
      r.push_count_ ≤ (runState r ops).push_count_ ∧
      r.pop_count_ ≤ (runState r ops).pop_count_ ∧
      r.failed_push_count_ ≤ (runState r ops).failed_push_count_ := by
  intro ops
  induction ops with
  | nil =>
    intro r h _
    exact ⟨h, by simp [runState, runTrace, pushCalls], Nat.le_refl _,
      Nat.le_refl _, Nat.le_refl _⟩
  | cons op rest ih =>
    intro r hinv hbound
    obtain ⟨hh, ht, hple, hlen⟩ := hinv
    cases op with
    | push x =>
      have hpc : pushCalls (RingOp.push x :: rest) = pushCalls rest + 1 := rfl
      rw [hpc] at hbound ⊢
      rw [runState_cons_push]
      by_cases hc : next_index (2 ^ k) r.head_ = r.tail_
      · rw [try_emplace_full x hc]
        have hf1 : (r.failed_push_count_ + 1) % U64 = r.failed_push_count_ + 1 :=
          Nat.mod_eq_of_lt (by omega)
        obtain ⟨h1, h2, h3, h4, h5⟩ := ih
          { r with failed_push_count_ := (r.failed_push_count_ + 1) % U64 }
          ⟨hh, ht, hple, hlen⟩
          (by show r.push_count_ + (r.failed_push_count_ + 1) % U64 +
                pushCalls rest < U64
              rw [hf1]; omega)
        refine ⟨h1, ?_, h3, h4, ?_⟩
        · rw [h2]
          show r.push_count_ + (r.failed_push_count_ + 1) % U64 +
            pushCalls rest = r.push_count_ + r.failed_push_count_ +
            (pushCalls rest + 1)
          rw [hf1]; omega
        · calc r.failed_push_count_ ≤ r.failed_push_count_ + 1 := by omega
          _ = (r.failed_push_count_ + 1) % U64 := hf1.symm
          _ ≤ _ := h5
      · rw [try_emplace_ok x hc]
        have hp1 : (r.push_count_ + 1) % U64 = r.push_count_ + 1 :=
          Nat.mod_eq_of_lt (by omega)
        have hinv' : SInv ({ r with
            buffer_ := fun i => if i = r.head_ then x else r.buffer_ i
            head_ := next_index (2 ^ k) r.head_
            push_count_ := (r.push_count_ + 1) % U64 } : SPSCRing T (2 ^ k)) := by
          refine ⟨next_index_lt (pow_pos (by decide) k) _, ht, ?_, ?_⟩
          · show r.pop_count_ ≤ (r.push_count_ + 1) % U64
            rw [hp1]; omega
          · show (next_index (2 ^ k) r.head_ + 2 ^ k - r.tail_) % 2 ^ k =
              (r.push_count_ + 1) % U64 - r.pop_count_
            rw [hp1, next_index_pow]
            rw [next_index_pow] at hc
            rw [ring_len_succ hh ht hc, hlen]
            omega
        obtain ⟨h1, h2, h3, h4, h5⟩ := ih _ hinv'
          (by show (r.push_count_ + 1) % U64 + r.failed_push_count_ +
                pushCalls rest < U64
              rw [hp1]; omega)
        refine ⟨h1, ?_, ?_, h4, h5⟩
        · rw [h2]
          show (r.push_count_ + 1) % U64 + r.failed_push_count_ +
            pushCalls rest = r.push_count_ + r.failed_push_count_ +
            (pushCalls rest + 1)
          rw [hp1]; omega
        · calc r.push_count_ ≤ r.push_count_ + 1 := by omega
          _ = (r.push_count_ + 1) % U64 := hp1.symm
          _ ≤ _ := h3
    | pop =>
      have hpc : pushCalls (RingOp.pop :: rest) = pushCalls rest := rfl
      rw [hpc] at hbound ⊢
      rw [runState_cons_pop]
      by_cases hc : r.tail_ = r.head_
      · rw [try_pop_of_empty hc]
        exact ih r ⟨hh, ht, hple, hlen⟩ hbound
      · rw [try_pop_ok hc]
        have hlt : r.pop_count_ < r.push_count_ := by
          have hne : ¬ r.head_ = r.tail_ := fun hE => hc hE.symm
          have hz : ¬ (r.head_ + 2 ^ k - r.tail_) % 2 ^ k = 0 := fun h0 =>
            hne ((ring_len_eq_zero_iff hh ht).mp h0)
          omega
        have hq1 : (r.pop_count_ + 1) % U64 = r.pop_count_ + 1 :=
          Nat.mod_eq_of_lt (by omega)
        have hinv' : SInv ({ r with
            tail_ := next_index (2 ^ k) r.tail_
            pop_count_ := (r.pop_count_ + 1) % U64 } : SPSCRing T (2 ^ k)) := by
          refine ⟨hh, next_index_lt (pow_pos (by decide) k) _, ?_, ?_⟩
          · show (r.pop_count_ + 1) % U64 ≤ r.push_count_
            rw [hq1]; omega
          · show (r.head_ + 2 ^ k - next_index (2 ^ k) r.tail_) % 2 ^ k =
              r.push_count_ - (r.pop_count_ + 1) % U64
            rw [hq1, next_index_pow]
            have hpred := ring_len_pred hh ht hc
            omega
        obtain ⟨h1, h2, h3, h4, h5⟩ := ih _ hinv'
          (by show r.push_count_ + r.failed_push_count_ + pushCalls rest < U64
              omega)
        refine ⟨h1, by rw [h2], h3, ?_, h5⟩
        calc r.pop_count_ ≤ r.pop_count_ + 1 := by omega
        _ = (r.pop_count_ + 1) % U64 := hq1.symm
        _ ≤ _ := h4

theorem try_emplace_fields_ok {T : Type} {Size : Nat} {r : SPSCRing T Size}
    (x : T) (h : ¬ next_index Size r.head_ = r.tail_) :
    (r.try_emplace x).1 = true ∧
    (r.try_emplace x).2.head_ = next_index Size r.head_ ∧
    (r.try_emplace x).2.tail_ = r.tail_ ∧
    (r.try_emplace x).2.push_count_ = (r.push_count_ + 1) % U64 ∧
    (r.try_emplace x).2.pop_count_ = r.pop_count_ ∧
    (r.try_emplace x).2.failed_push_count_ = r.failed_push_count_ := by
  rw [try_emplace_ok x h]
  exact ⟨rfl, rfl, rfl, rfl, rfl, rfl⟩

theorem try_pop_fields_ok {T : Type} {Size : Nat} {r : SPSCRing T Size}
    (h : ¬ r.tail_ = r.head_) :
    r.try_pop.1 = some (r.buffer_ r.tail_) ∧
    r.try_pop.2.head_ = r.head_ ∧
    r.try_pop.2.tail_ = next_index Size r.tail_ ∧
    r.try_pop.2.push_count_ = r.push_count_ ∧
    r.try_pop.2.pop_count_ = (r.pop_count_ + 1) % U64 ∧
    r.try_pop.2.failed_push_count_ = r.failed_push_count_ ∧
    r.try_pop.2.buffer_ = r.buffer_ := by
  rw [try_pop_ok h]
  exact ⟨rfl, rfl, rfl, rfl, rfl, rfl, rfl⟩

theorem sinv_new {T : Type} [Inhabited T] {Size : Nat} (hpos : 0 < Size) :
    SInv (SPSCRing.new T Size) := by
  refine ⟨hpos, hpos, Nat.le_refl _, ?_⟩
  show (0 + Size - 0) % Size = 0 - 0
  simp

/-- C6 (amended): provided fewer than `2 ^ 64` push calls are made (the
`uint64_t` counters cannot wrap), after any call sequence
`total_pops() ≤ total_pushes()`, `total_pushes() + failed_pushes()` equals
the number of `try_emplace` calls made, and every counter is non-decreasing
from any prefix of the sequence to the full sequence. -/
theorem counter_consistency_bounded {T : Type} [Inhabited T] {Size : Nat}
    (k : Nat) (hS : Size = 2 ^ k) (ops : List (RingOp T))
    (hcalls : pushCalls ops < U64) :
    (runState (SPSCRing.new T Size) ops).total_pops ≤
      (runState (SPSCRing.new T Size) ops).total_pushes ∧
    (runState (SPSCRing.new T Size) ops).total_pushes +
      (runState (SPSCRing.new T Size) ops).failed_pushes = pushCalls ops ∧
    ∀ pre suf, ops = pre ++ suf →
      (runState (SPSCRing.new T Size) pre).total_pushes ≤
        (runState (SPSCRing.new T Size) ops).total_pushes ∧
      (runState (SPSCRing.new T Size) pre).total_pops ≤
        (runState (SPSCRing.new T Size) ops).total_pops ∧
      (runState (SPSCRing.new T Size) pre).failed_pushes ≤
        (runState (SPSCRing.new T Size) ops).failed_pushes := by
  subst hS
  have hfresh : SInv (SPSCRing.new T (2 ^ k)) := sinv_new (pow_pos (by decide) k)
  obtain ⟨h1, h2, _, _, _⟩ := counters_run ops (SPSCRing.new T (2 ^ k)) hfresh
    (by show 0 + 0 + pushCalls ops < U64; omega)
  obtain ⟨_, _, hple, _⟩ := h1
  refine ⟨hple, ?_, ?_⟩
  · show (runState (SPSCRing.new T (2 ^ k)) ops).push_count_ +
      (runState (SPSCRing.new T (2 ^ k)) ops).failed_push_count_ = pushCalls ops
    rw [h2]
    show 0 + 0 + pushCalls ops = pushCalls ops
    omega
  · intro pre suf hsplit
    subst hsplit
    rw [pushCalls_append] at hcalls
    obtain ⟨hpreInv, hpre2, _, _, _⟩ := counters_run pre (SPSCRing.new T (2 ^ k))
      hfresh (by show 0 + 0 + pushCalls pre < U64; omega)
    rw [runState_append]
    refine (counters_run suf _ hpreInv ?_).2.2
    have hz : (SPSCRing.new T (2 ^ k)).push_count_ = 0 := rfl
    have hz2 : (SPSCRing.new T (2 ^ k)).failed_push_count_ = 0 := rfl
    rw [hz, hz2] at hpre2
    omega

/-- Witness for `counter_consistency_bounded`. -/
theorem counter_consistency_bounded_witness :
    (2 : Nat) = 2 ^ 1 ∧
    pushCalls [RingOp.push 5, RingOp.push 6, RingOp.pop] < U64 ∧
    ((runState (SPSCRing.new Nat 2)
        [RingOp.push 5, RingOp.push 6, RingOp.pop]).total_pops ≤
      (runState (SPSCRing.new Nat 2)
        [RingOp.push 5, RingOp.push 6, RingOp.pop]).total_pushes ∧
     (runState (SPSCRing.new Nat 2)
        [RingOp.push 5, RingOp.push 6, RingOp.pop]).total_pushes +
       (runState (SPSCRing.new Nat 2)
        [RingOp.push 5, RingOp.push 6, RingOp.pop]).failed_pushes =
       pushCalls [RingOp.push 5, RingOp.push 6, RingOp.pop] ∧
     ∀ pre suf, [RingOp.push 5, RingOp.push 6, RingOp.pop] = pre ++ suf →
       (runState (SPSCRing.new Nat 2) pre).total_pushes ≤
         (runState (SPSCRing.new Nat 2)
           [RingOp.push 5, RingOp.push 6, RingOp.pop]).total_pushes ∧
       (runState (SPSCRing.new Nat 2) pre).total_pops ≤
         (runState (SPSCRing.new Nat 2)
           [RingOp.push 5, RingOp.push 6, RingOp.pop]).total_pops ∧
       (runState (SPSCRing.new Nat 2) pre).failed_pushes ≤
         (runState (SPSCRing.new Nat 2)
           [RingOp.push 5, RingOp.push 6, RingOp.pop]).failed_pushes) :=
  ⟨by decide, by decide,
    counter_consistency_bounded 1 (by decide)
      [RingOp.push 5, RingOp.push 6, RingOp.pop] (by decide)⟩

/-- Alternating trace: `n` rounds of one push followed by one pop, on a
two-slot ring. -/
def pumpOps : Nat → List (RingOp Nat)
  | 0 => []
  | n + 1 => pumpOps n ++ [RingOp.push 0, RingOp.pop]

theorem pushCalls_pumpOps (n : Nat) : pushCalls (pumpOps n) = n := by
  induction n with
  | zero => rfl
  | succ m ih =>
    rw [pumpOps, pushCalls_append, ih]
    rfl

theorem next_index_two (c : Nat) : next_index 2 c = (c + 1) % 2 :=
  next_index_pow 1 c

/-- One push-then-pop round from a balanced state `head = tail = h`. -/
theorem pump_round {s : SPSCRing Nat 2} {h p q : Nat}
    (hh : s.head_ = h) (ht : s.tail_ = h)
    (hpu : s.push_count_ = p) (hpo : s.pop_count_ = q)
    (hf : s.failed_push_count_ = 0) :
    (runState s [RingOp.push 0, RingOp.pop]).head_ = (h + 1) % 2 ∧
    (runState s [RingOp.push 0, RingOp.pop]).tail_ = (h + 1) % 2 ∧
    (runState s [RingOp.push 0, RingOp.pop]).push_count_ = (p + 1) % U64 ∧
    (runState s [RingOp.push 0, RingOp.pop]).pop_count_ = (q + 1) % U64 ∧
    (runState s [RingOp.push 0, RingOp.pop]).failed_push_count_ = 0 := by
  have hg1 : ¬ next_index 2 s.head_ = s.tail_ := by
    rw [next_index_two, hh, ht]
    omega
  have e1 : runState s [RingOp.push 0, RingOp.pop] =
      (s.try_emplace 0).2.try_pop.2 := rfl
  obtain ⟨_, f2, f3, f4, f5, f6⟩ := try_emplace_fields_ok (r := s) 0 hg1
  have hg2 : ¬ (s.try_emplace 0).2.tail_ = (s.try_emplace 0).2.head_ := by
    rw [f2, f3, next_index_two, hh, ht]
    omega
  obtain ⟨_, g2, g3, g4, g5, g6, _⟩ := try_pop_fields_ok hg2
  rw [e1, g2, g3, g4, g5, g6, f2, f3, f4, f5, f6, hh, ht, hpu, hpo, hf]
  rw [next_index_two]
  exact ⟨rfl, rfl, rfl, rfl, rfl⟩

/-- Closed form for the state after `n` pump rounds from a fresh two-slot
ring: balanced positions `n mod 2`, both success counters at `n mod 2^64`,
no failed pushes. -/
theorem pumpOps_state (n : Nat) :
    (runState (SPSCRing.new Nat 2) (pumpOps n)).head_ = n % 2 ∧
    (runState (SPSCRing.new Nat 2) (pumpOps n)).tail_ = n % 2 ∧
    (runState (SPSCRing.new Nat 2) (pumpOps n)).push_count_ = n % U64 ∧
    (runState (SPSCRing.new Nat 2) (pumpOps n)).pop_count_ = n % U64 ∧
    (runState (SPSCRing.new Nat 2) (pumpOps n)).failed_push_count_ = 0 := by
  induction n with
  | zero => exact ⟨rfl, rfl, rfl, rfl, rfl⟩
  | succ m ih =>
    obtain ⟨hh, ht, hpu, hpo, hf⟩ := ih
    obtain ⟨a1, a2, a3, a4, a5⟩ := pump_round hh ht hpu hpo hf
    rw [pumpOps, runState_append]
    refine ⟨?_, ?_, ?_, ?_, a5⟩
    · rw [a1]; exact Nat.mod_add_mod _ _ _
    · rw [a2]; exact Nat.mod_add_mod _ _ _
    · rw [a3]; exact Nat.mod_add_mod _ _ _
    · rw [a4]; exact Nat.mod_add_mod _ _ _

/-- C6 counterexample: after `2 ^ 64` push calls (alternating with pops so
each one succeeds), the `uint64_t` success counter has wrapped to zero, so
`total_pushes() + failed_pushes()` no longer equals the number of
`try_emplace` calls made. -/
theorem counter_wrap_cex :
    pushCalls (pumpOps U64) = U64 ∧
    ¬ ((runState (SPSCRing.new Nat 2) (pumpOps U64)).total_pushes +
        (runState (SPSCRing.new Nat 2) (pumpOps U64)).failed_pushes =
        pushCalls (pumpOps U64)) := by
  obtain ⟨_, _, hpu, _, hf⟩ := pumpOps_state U64
  have hcalls := pushCalls_pumpOps U64
  refine ⟨hcalls, ?_⟩
  rw [hcalls, total_pushes_def, failed_pushes_def, hpu, hf, Nat.mod_self]
  have hU : 0 < U64 := by decide
  omega

/-- For in-range positions and `Size = 2 ^ k` with `k ≤ 64` (as forced by
`size_t`), the `size_t`-wraparound computation `(head - tail) & MASK`
yields the circular distance `(head + Size - tail) % Size`. -/
theorem size_eq_ring_len {T : Type} {Size : Nat} (k : Nat) (hS : Size = 2 ^ k)
    (hk : k ≤ 64) (r : SPSCRing T Size) (hh : r.head_ < Size)
    (ht : r.tail_ < Size) :
    r.size = (r.head_ + Size - r.tail_) % Size := by
  subst hS
  show ((r.head_ + U64 - r.tail_) % U64) &&& (2 ^ k - 1) =
    (r.head_ + 2 ^ k - r.tail_) % 2 ^ k
  rw [Nat.and_pow_two_sub_one_eq_mod]
  have hdvd : (2 : Nat) ^ k ∣ 2 ^ 64 := pow_dvd_pow 2 hk
  have hU : U64 = 2 ^ 64 := rfl
  rw [hU, Nat.mod_mod_of_dvd _ hdvd]
  have hle : (2 : Nat) ^ k ≤ 2 ^ 64 := Nat.pow_le_pow_right (by decide) hk
  obtain ⟨c, hc⟩ : (2 : Nat) ^ k ∣ 2 ^ 64 - 2 ^ k := Nat.dvd_sub' hdvd dvd_rfl
  have e : r.head_ + 2 ^ 64 - r.tail_ =
      (r.head_ + 2 ^ k - r.tail_) + (2 ^ 64 - 2 ^ k) := by
    omega
  rw [e, hc, Nat.add_mul_mod_self_left]

/-- C10 (amended): provided fewer than `2 ^ 64` push calls are made, at
every reachable state `size()` equals `(head - tail) mod N`, which equals
`total_pushes() - total_pops()` (the number of elements currently held),
and this value is at most `capacity()`. -/
theorem size_inv_bounded {T : Type} [Inhabited T] {Size : Nat} (k : Nat)
    (hS : Size = 2 ^ k) (hk : k ≤ 64) (ops : List (RingOp T))
    (hcalls : pushCalls ops < U64) :
    (runState (SPSCRing.new T Size) ops).size =
      ((runState (SPSCRing.new T Size) ops).head_ + Size -
        (runState (SPSCRing.new T Size) ops).tail_) % Size ∧
    (runState (SPSCRing.new T Size) ops).size =
      (runState (SPSCRing.new T Size) ops).total_pushes -
        (runState (SPSCRing.new T Size) ops).total_pops ∧
    (runState (SPSCRing.new T Size) ops).size ≤
      (runState (SPSCRing.new T Size) ops).capacity := by
  subst hS
  have hfresh : SInv (SPSCRing.new T (2 ^ k)) := sinv_new (pow_pos (by decide) k)
  obtain ⟨⟨hh, ht, hple, hlen⟩, _, _, _, _⟩ :=
    counters_run ops (SPSCRing.new T (2 ^ k)) hfresh
      (by show 0 + 0 + pushCalls ops < U64; omega)
  have hsz := size_eq_ring_len k rfl hk _ hh ht
  refine ⟨hsz, ?_, ?_⟩
  · rw [hsz, total_pushes_def, total_pops_def]
    exact hlen
  · rw [hsz]
    show _ ≤ 2 ^ k - 1
    have hm := Nat.mod_lt
      ((runState (SPSCRing.new T (2 ^ k)) ops).head_ + 2 ^ k -
        (runState (SPSCRing.new T (2 ^ k)) ops).tail_)
      (pow_pos (by decide : (0:Nat) < 2) k)
    omega

/-- Witness for `size_inv_bounded`. -/
theorem size_inv_bounded_witness :
    (2 : Nat) = 2 ^ 1 ∧ 1 ≤ 64 ∧ pushCalls [RingOp.push 3] < U64 ∧
    ((runState (SPSCRing.new Nat 2) [RingOp.push 3]).size =
      ((runState (SPSCRing.new Nat 2) [RingOp.push 3]).head_ + 2 -
        (runState (SPSCRing.new Nat 2) [RingOp.push 3]).tail_) % 2 ∧
     (runState (SPSCRing.new Nat 2) [RingOp.push 3]).size =
      (runState (SPSCRing.new Nat 2) [RingOp.push 3]).total_pushes -
        (runState (SPSCRing.new Nat 2) [RingOp.push 3]).total_pops ∧
     (runState (SPSCRing.new Nat 2) [RingOp.push 3]).size ≤
      (runState (SPSCRing.new Nat 2) [RingOp.push 3]).capacity) :=
  ⟨by decide, by decide, by decide,
    size_inv_bounded 1 (by decide) (by decide) [RingOp.push 3] (by decide)⟩

/-- C10 counterexample: after `2 ^ 64 - 1` balanced pump rounds and one
more successful push, the ring holds one element and `size()` reports 1,
but the wrapped `uint64_t` counters give `total_pushes() - total_pops() =
0 - (2 ^ 64 - 1) = 0`. -/
theorem size_counter_cex :
    (runState (SPSCRing.new Nat 2)
      (pumpOps (U64 - 1) ++ [RingOp.push 0])).size = 1 ∧
    (runState (SPSCRing.new Nat 2)
        (pumpOps (U64 - 1) ++ [RingOp.push 0])).total_pushes -
      (runState (SPSCRing.new Nat 2)
        (pumpOps (U64 - 1) ++ [RingOp.push 0])).total_pops = 0 := by
  obtain ⟨hh, ht, hpu, hpo, _⟩ := pumpOps_state (U64 - 1)
  have hodd : (U64 - 1) % 2 = 1 := by
    have h1 : U64 % 2 = 0 := by decide
    have h2 : 2 ≤ U64 := by decide
    omega
  have hUlt : U64 - 1 < U64 := by
    have h2 : 2 ≤ U64 := by decide
    omega
  rw [runState_append, runState_cons_push, runState_nil]
  have hg1 : ¬ next_index 2
      (runState (SPSCRing.new Nat 2) (pumpOps (U64 - 1))).head_ =
      (runState (SPSCRing.new Nat 2) (pumpOps (U64 - 1))).tail_ := by
    rw [next_index_two, hh, ht, hodd]
    omega
  obtain ⟨_, f2, f3, f4, f5, _⟩ := try_emplace_fields_ok 0 hg1
  have hh2 : ((runState (SPSCRing.new Nat 2)
      (pumpOps (U64 - 1))).try_emplace 0).2.head_ = 0 := by
    rw [f2, next_index_two, hh, hodd]
  have ht2 : ((runState (SPSCRing.new Nat 2)
      (pumpOps (U64 - 1))).try_emplace 0).2.tail_ = 1 := by
    rw [f3, ht, hodd]
  constructor
  · rw [size_eq_ring_len 1 (by decide) (by decide) _ (by rw [hh2]; omega)
      (by rw [ht2]; omega), hh2, ht2]
  · rw [total_pushes_def, total_pops_def, f4, f5, hpu, hpo,
      Nat.mod_eq_of_lt hUlt]
    have hsum : U64 - 1 + 1 = U64 := by
      have h2 : 2 ≤ U64 := by decide
      omega
    rw [hsum, Nat.mod_self]
    omega

/-- Position arithmetic: walking `j < Size` slots from `tail` lands on
`head` exactly when `j` is the circular distance from `tail` to `head`. -/
theorem ring_index_inj {Size h t j : Nat} (hh : h < Size) (ht : t < Size)
    (hj : j < Size) :
    (t + j) % Size = h ↔ j = (h + Size - t) % Size := by
  have hlen : (h + Size - t) % Size = if h < t then Size - (t - h) else h - t := by
    rcases Nat.lt_or_ge h t with h1 | h1
    · rw [if_pos h1, Nat.mod_eq_of_lt (by omega)]
      omega
    · rw [if_neg (by omega)]
      have e2 : h + Size - t = (h - t) + Size := by omega
      rw [e2, Nat.add_mod_right, Nat.mod_eq_of_lt (by omega)]
  rcases Nat.lt_or_ge (t + j) Size with hc | hc
  · rw [Nat.mod_eq_of_lt hc, hlen]
    split <;> omega
  · have e0 : (t + j) % Size = t + j - Size := by
      have e2 : t + j = (t + j - Size) + Size := by omega
      rw [e2, Nat.add_mod_right, Nat.mod_eq_of_lt (by omega)]
      omega
    rw [e0, hlen]
    split <;> omega

/-- Abstraction relation: the ring currently holds exactly the values of
`l`, oldest first, in the buffer slots walked from `tail_`. -/
def Abs {T : Type} {Size : Nat} (r : SPSCRing T Size) (l : List T) : Prop :=
  r.head_ < Size ∧ r.tail_ < Size ∧
  l.length = (r.head_ + Size - r.tail_) % Size ∧
  ∀ i, i < l.length → l.get? i = some (r.buffer_ ((r.tail_ + i) % Size))

theorem abs_new {T : Type} [Inhabited T] {Size : Nat} (hpos : 0 < Size) :
    Abs (SPSCRing.new T Size) [] := by
  refine ⟨hpos, hpos, ?_, ?_⟩
  · show (0 : Nat) = (0 + Size - 0) % Size
    simp
  · intro i hi
    simp at hi

theorem contents_eq_of_abs {T : Type} {Size : Nat} {r : SPSCRing T Size}
    {l : List T} (h : Abs r l) : contents r = l := by
  obtain ⟨hh, ht, hlen, helt⟩ := h
  have hrl : ringLen r = l.length := hlen.symm
  refine List.ext_get?_iff.mpr ?_
  intro i
  by_cases hi : i < l.length
  · rw [contents, List.get?_map, List.get?_range (by rw [hrl]; exact hi)]
    exact (helt i hi).symm
  · have h1 : l.get? i = none := List.get?_eq_none.mpr (by omega)
    have hcl : (contents r).length = ringLen r := by simp [contents]
    have h2 : (contents r).get? i = none :=
      List.get?_eq_none.mpr (by rw [hcl, hrl]; omega)
    rw [h1, h2]

theorem abs_push_full {T : Type} {k : Nat} {r : SPSCRing T (2 ^ k)}
    {l : List T} (habs : Abs r l) (x : T)
    (hc : next_index (2 ^ k) r.head_ = r.tail_) :
    Abs (r.try_emplace x).2 l := by
  rw [try_emplace_full x hc]
  exact habs

theorem abs_push_ok {T : Type} {k : Nat} {r : SPSCRing T (2 ^ k)}
    {l : List T} (habs : Abs r l) (x : T)
    (hc : ¬ next_index (2 ^ k) r.head_ = r.tail_) :
    Abs (r.try_emplace x).2 (l ++ [x]) := by
  obtain ⟨hh, ht, hlen, helt⟩ := habs
  have hpos : 0 < 2 ^ k := pow_pos (by decide) k
  have hllt : l.length < 2 ^ k := by
    rw [hlen]
    exact Nat.mod_lt _ hpos
  rw [try_emplace_ok x hc]
  rw [next_index_pow] at hc
  refine ⟨?_, ht, ?_, ?_⟩
  · show (r.head_ + 1) &&& (2 ^ k - 1) < 2 ^ k
    exact next_index_lt hpos _
  · show (l ++ [x]).length =
      (next_index (2 ^ k) r.head_ + 2 ^ k - r.tail_) % 2 ^ k
    rw [next_index_pow, ring_len_succ hh ht hc, ← hlen]
    simp
  · intro i hi
    have hilen : i < l.length + 1 := by
      have he : (l ++ [x]).length = l.length + 1 := by simp
      omega
    rcases Nat.lt_or_ge i l.length with hil | hil
    · have hne : ¬ (r.tail_ + i) % 2 ^ k = r.head_ := by
        intro hEq
        have := (ring_index_inj hh ht (by omega : i < 2 ^ k)).mp hEq
        omega
      rw [List.get?_append hil, helt i hil]
      show some (r.buffer_ ((r.tail_ + i) % 2 ^ k)) =
        some (if (r.tail_ + i) % 2 ^ k = r.head_ then x
          else r.buffer_ ((r.tail_ + i) % 2 ^ k))
      rw [if_neg hne]
    · have hieq : i = l.length := by omega
      subst hieq
      have heq : (r.tail_ + l.length) % 2 ^ k = r.head_ :=
        (ring_index_inj hh ht (by omega)).mpr hlen
      rw [List.get?_concat_length]
      show some x = some (if (r.tail_ + l.length) % 2 ^ k = r.head_ then x
        else r.buffer_ ((r.tail_ + l.length) % 2 ^ k))
      rw [if_pos heq]

theorem abs_pop_empty {T : Type} {Size : Nat} {r : SPSCRing T Size}
    {l : List T} (habs : Abs r l) (hc : r.tail_ = r.head_) :
    r.try_pop = (none, r) ∧ l = [] := by
  obtain ⟨hh, ht, hlen, _⟩ := habs
  refine ⟨try_pop_of_empty hc, ?_⟩
  have h0 : l.length = 0 := by
    rw [hlen]
    exact (ring_len_eq_zero_iff hh ht).mpr hc.symm
  exact List.length_eq_zero.mp h0

theorem abs_pop_ok {T : Type} {k : Nat} {r : SPSCRing T (2 ^ k)} {v : T}
    {l : List T} (habs : Abs r (v :: l)) (hc : ¬ r.tail_ = r.head_) :
    r.try_pop.1 = some v ∧ Abs r.try_pop.2 l := by
  obtain ⟨hh, ht, hlen, helt⟩ := habs
  have hpos : 0 < 2 ^ k := pow_pos (by decide) k
  have hv : (v :: l).get? 0 = some (r.buffer_ ((r.tail_ + 0) % 2 ^ k)) :=
    helt 0 (by simp)
  have ht0 : (r.tail_ + 0) % 2 ^ k = r.tail_ := by
    rw [Nat.add_zero, Nat.mod_eq_of_lt ht]
  rw [ht0, List.get?_cons_zero] at hv
  obtain ⟨g1, g2, g3, g4, g5, g6, gbuf⟩ := try_pop_fields_ok hc
  have hlen' : l.length + 1 = (r.head_ + 2 ^ k - r.tail_) % 2 ^ k := by
    rw [← hlen]
    simp
  refine ⟨by rw [g1]; exact hv.symm, ?_, ?_, ?_, ?_⟩
  · rw [g2]; exact hh
  · rw [g3]; exact next_index_lt hpos _
  · rw [g2, g3, next_index_pow]
    have hpred := ring_len_pred hh ht hc
    omega
  · intro i hi
    rw [gbuf, g3, next_index_pow]
    have hidx : ((r.tail_ + 1) % 2 ^ k + i) % 2 ^ k =
        (r.tail_ + (i + 1)) % 2 ^ k := by
      rw [Nat.mod_add_mod]
      congr 1
      omega
    rw [hidx]
    have hstep := helt (i + 1) (by simp; omega)
    rw [List.get?_cons_succ] at hstep
    exact hstep

theorem runTrace_cons_push {T : Type} {Size : Nat} (r : SPSCRing T Size)
    (x : T) (rest : List (RingOp T)) :
    runTrace r (RingOp.push x :: rest) =
      ((if (r.try_emplace x).1 then
          x :: (runTrace (r.try_emplace x).2 rest).1
        else (runTrace (r.try_emplace x).2 rest).1),
       (runTrace (r.try_emplace x).2 rest).2.1,
       (runTrace (r.try_emplace x).2 rest).2.2) := rfl

theorem runTrace_cons_pop {T : Type} {Size : Nat} (r : SPSCRing T Size)
    (rest : List (RingOp T)) :
    runTrace r (RingOp.pop :: rest) =
      ((runTrace r.try_pop.2 rest).1,
       (match r.try_pop.1 with
        | some v => v :: (runTrace r.try_pop.2 rest).2.1
        | none => (runTrace r.try_pop.2 rest).2.1),
       (runTrace r.try_pop.2 rest).2.2) := rfl

/-- Simulation: from any state abstracting to `l`, running any call
sequence delivers (as successful pops) a prefix of `l ++ accepted`, and
the final state holds exactly the rest. -/
theorem fifo_run {T : Type} {k : Nat} :
    ∀ (ops : List (RingOp T)) (r : SPSCRing T (2 ^ k)) (l : List T),
      Abs r l →
      ∃ lf, Abs (runState r ops) lf ∧
        (runTrace r ops).2.1 ++ lf = l ++ (runTrace r ops).1 := by
  intro ops
  induction ops with
  | nil =>
    intro r l habs
    exact ⟨l, habs, by simp [runTrace, runState]⟩
  | cons op rest ih =>
    intro r l habs
    cases op with
    | push x =>
      rw [runTrace_cons_push, runState_cons_push]
      by_cases hc : next_index (2 ^ k) r.head_ = r.tail_
      · have hfalse : (r.try_emplace x).1 = false := by
          rw [try_emplace_full x hc]
        obtain ⟨lf, habs', heq⟩ := ih (r.try_emplace x).2 l
          (abs_push_full habs x hc)
        refine ⟨lf, habs', ?_⟩
        rw [hfalse]
        simpa using heq
      · have htrue : (r.try_emplace x).1 = true := by
          rw [try_emplace_ok x hc]
        obtain ⟨lf, habs', heq⟩ := ih (r.try_emplace x).2 (l ++ [x])
          (abs_push_ok habs x hc)
        refine ⟨lf, habs', ?_⟩
        rw [htrue]
        simp only [if_true]
        rw [heq]
        simp
    | pop =>
      rw [runTrace_cons_pop, runState_cons_pop]
      by_cases hc : r.tail_ = r.head_
      · obtain ⟨hpop, hnil⟩ := abs_pop_empty habs hc
        subst hnil
        have hnone : r.try_pop.1 = none := by rw [hpop]
        obtain ⟨lf, habs', heq⟩ := ih r.try_pop.2 [] (by rw [hpop]; exact habs)
        refine ⟨lf, habs', ?_⟩
        rw [hnone]
        simpa using heq
      · rcases l with _ | ⟨v, l'⟩
        · exfalso
          obtain ⟨hh, ht, hlen, _⟩ := habs
          apply hc
          have h0 : (r.head_ + 2 ^ k - r.tail_) % 2 ^ k = 0 := by
            rw [← hlen]
            rfl
          exact ((ring_len_eq_zero_iff hh ht).mp h0).symm
        · obtain ⟨hval, habs2⟩ := abs_pop_ok habs hc
          obtain ⟨lf, habs', heq⟩ := ih r.try_pop.2 l' habs2
          refine ⟨lf, habs', ?_⟩
          rw [hval]
          simp only [List.cons_append]
          rw [heq]

/-- C1: FIFO order — over any sequential SPSC call sequence on a fresh
power-of-two ring, the values delivered by successful pops followed by the
values still held are exactly the values accepted by successful pushes, in
push order: nothing is lost, duplicated or reordered. -/
theorem fifo_order {T : Type} [Inhabited T] {Size : Nat} (k : Nat)
    (hS : Size = 2 ^ k) (ops : List (RingOp T)) :
    (runTrace (SPSCRing.new T Size) ops).2.1 ++
      contents (runState (SPSCRing.new T Size) ops) =
    (runTrace (SPSCRing.new T Size) ops).1 := by
  subst hS
  obtain ⟨lf, habs, heq⟩ := fifo_run ops (SPSCRing.new T (2 ^ k)) []
    (abs_new (pow_pos (by decide) k))
  rw [contents_eq_of_abs habs, heq]
  simp

/-- Witness for `fifo_order`: a trace with failed pushes, failed pops and
values left in the queue. -/
theorem fifo_order_witness :
    (4 : Nat) = 2 ^ 2 ∧
    (runTrace (SPSCRing.new Nat 4) [RingOp.push 1, RingOp.push 2,
        RingOp.push 3, RingOp.push 4, RingOp.pop, RingOp.push 5, RingOp.pop,
        RingOp.pop]).2.1 ++
      contents (runState (SPSCRing.new Nat 4) [RingOp.push 1, RingOp.push 2,
        RingOp.push 3, RingOp.push 4, RingOp.pop, RingOp.push 5, RingOp.pop,
        RingOp.pop]) =
    (runTrace (SPSCRing.new Nat 4) [RingOp.push 1, RingOp.push 2,
        RingOp.push 3, RingOp.push 4, RingOp.pop, RingOp.push 5, RingOp.pop,
        RingOp.pop]).1 :=
  ⟨by decide, fifo_order 2 (by decide) [RingOp.push 1, RingOp.push 2,
    RingOp.push 3, RingOp.push 4, RingOp.pop, RingOp.push 5, RingOp.pop,
    RingOp.pop]⟩

example :
    (runTrace (SPSCRing.new Nat 4) [RingOp.push 1, RingOp.push 2, RingOp.pop,
      RingOp.pop, RingOp.pop]).2.1 = [1, 2] := by decide

example :
    (runTrace (SPSCRing.new Nat 2) [RingOp.push 7, RingOp.push 8]).1 = [7] := by
  decide

example : (runState (SPSCRing.new Nat 4)
    [RingOp.push 1, RingOp.push 2]).size = 2 := by decide
